import Mathlib

/-!
Shallow embedding of the spaced-repetition scheduling core of the Koda
flashcard application, together with theorems checking the specification's
claims against it.

Sources embedded here:
* the authoritative review processor of the `/api/study/review` route
  (`src/api/index.ts`),
* the `nextReviewAt` date computation of the same route,
* the session-seeding query of `/api/study/session` and the due-card query
  of `/api/study/due` (`src/api/index.ts`),
* the client-side scheduler `calculateSM2` and the session-queue update
  `handleCardReview` of `src/client/src/pages/StudySessionPage.tsx`.

JavaScript numbers are modelled as exact rationals (`ℚ`); the values the
code manipulates (multiples of 0.05, small products and roundings) stay in
ranges where IEEE doubles behave like the corresponding rationals for every
comparison the code performs.
-/

namespace Koda

/-- Stage enumeration of a card's memory state: `new`, `learning`, `review`,
`mastered`, as stored in the `stage` column. -/
inductive Stage where
  | new
  | learning
  | review
  | mastered
deriving DecidableEq, Repr

/-- Models JavaScript `Math.round`: rounds to the nearest integer, halves
toward positive infinity, i.e. `⌊x + 1/2⌋`. -/
def jsRound (x : ℚ) : ℤ := ⌊x + 1/2⌋

/-- Models ECMAScript `ToIntegerOrInfinity` on a finite number: truncation
toward zero, as applied by `Date.prototype.setDate` to its argument. -/
def jsTrunc (x : ℚ) : ℤ := if 0 ≤ x then ⌊x⌋ else -⌊-x⌋

/-- Memory state of a card as read and written by the authoritative review
handler: `stage`, `interval` (days), `easeFactor`, `consecutiveCorrect`. -/
structure SCard where
  stage : Stage
  interval : ℚ
  easeFactor : ℚ
  consecutiveCorrect : ℕ
deriving DecidableEq, Repr

/-- Authoritative server-side review state transition, embedded from the
`/api/study/review` handler in `src/api/index.ts` (lines 445-505): given the
card's current memory state, the submitted `quality` and `wasCorrect`,
computes `newStage`, `newInterval`, `newEaseFactor`, `newConsecutiveCorrect`. -/
def serverReview (c : SCard) (quality : ℚ) (wasCorrect : Bool) : SCard :=
  if wasCorrect then
    let cc := c.consecutiveCorrect + 1
    let si : Stage × ℚ :=
      match c.stage with
      | .new => (.learning, if quality ≥ 4 then 2 else 1)
      | .learning =>
          if cc ≥ 2 ∧ quality ≥ 3 then
            (.review, if quality ≥ 4 then 5 else 4)
          else
            (.learning, max 1 ((jsRound (c.interval * (13/10)) : ℤ) : ℚ))
      | .review =>
          let st : Stage :=
            if cc ≥ 3 ∧ quality ≥ 4 then .mastered
            else if cc ≥ 4 ∧ quality ≥ 3 then .mastered
            else .review
          (st, max 1 ((jsRound (c.interval * c.easeFactor) : ℤ) : ℚ))
      | .mastered =>
          (.mastered, max 7 ((jsRound (c.interval * c.easeFactor) : ℤ) : ℚ))
    let ease : ℚ :=
      if quality ≥ 4 then min (28/10) (c.easeFactor + 1/10)
      else if quality = 3 then min (28/10) (c.easeFactor + 5/100)
      else max (13/10) (c.easeFactor - 1/10)
    { stage := si.1, interval := si.2, easeFactor := ease,
      consecutiveCorrect := cc }
  else
    { stage :=
        match c.stage with
        | .mastered => .learning
        | .review => .learning
        | .learning => .new
        | .new => .new,
      interval :=
        match c.stage with
        | .mastered => 1
        | .review => 1
        | .learning => 1/2
        | .new => 1/4,
      easeFactor := max (13/10) (c.easeFactor - 2/10),
      consecutiveCorrect := 0 }

/-- Models `d.setDate(d.getDate() + delta)` on a `Date` holding instant
`now` (measured in days) whose local day-of-month is the integer
`dayOfMonth`: `setDate` truncates its argument toward zero and moves the
date by `trunc(dayOfMonth + delta) - dayOfMonth` calendar days, keeping the
time of day. -/
def setDateAdd (now : ℚ) (dayOfMonth : ℤ) (delta : ℚ) : ℚ :=
  now + ((jsTrunc ((dayOfMonth : ℚ) + delta) - dayOfMonth : ℤ) : ℚ)

/-- Card fields written back by the review route: the new memory state, the
`nextReviewAt` timestamp and the incremented `reviewCount`. -/
structure ReviewUpdate where
  state : SCard
  nextReviewAt : ℚ
  reviewCount : ℕ
deriving DecidableEq, Repr

/-- Full effect of the `/api/study/review` route on the card row
(`src/api/index.ts` lines 506-520): computes the new memory state with
`serverReview`, sets `nextReviewAt` via `setDate(getDate() + newInterval)`
and increments `reviewCount` by one. -/
def reviewEndpoint (c : SCard) (reviewCount : ℕ) (quality : ℚ)
    (wasCorrect : Bool) (now : ℚ) (dayOfMonth : ℤ) : ReviewUpdate :=
  let s := serverReview c quality wasCorrect
  { state := s,
    nextReviewAt := setDateAdd now dayOfMonth s.interval,
    reviewCount := reviewCount + 1 }

/-- Card fields read by the client-side scheduler `calculateSM2`
(destructured with defaults from the card object). -/
structure ClientCard where
  interval : ℚ
  repetition : ℕ
  easeFactor : ℚ
  stage : Stage
  consecutiveCorrect : ℕ
deriving DecidableEq, Repr

/-- Client-side session-local scheduler, embedded from `calculateSM2` in
`src/client/src/pages/StudySessionPage.tsx` (lines 137-203): the offline
fallback transition on the 1-4 "paw" quality scale, ending with the
interval clamp `max(0.25, min(365, interval))`. -/
def calculateSM2 (c : ClientCard) (quality : ℚ) : ClientCard :=
  let r : ClientCard :=
    if quality ≥ 3 then
      let rep := c.repetition + 1
      let cc := c.consecutiveCorrect + 1
      let si : Stage × ℚ :=
        match c.stage with
        | .new => (.learning, if quality = 4 then 2 else 1)
        | .learning =>
            if quality = 4 ∧ cc ≥ 1 then (.review, 4)
            else if quality = 3 ∧ cc ≥ 2 then (.review, 3)
            else (.learning, max 1 ((jsRound (c.interval * (3/2)) : ℤ) : ℚ))
        | .review =>
            let st : Stage :=
              if quality = 4 ∧ cc ≥ 2 then .mastered
              else if quality = 3 ∧ cc ≥ 3 then .mastered
              else .review
            (st, ((jsRound (c.interval * c.easeFactor) : ℤ) : ℚ))
        | .mastered =>
            (.mastered, ((jsRound (c.interval * c.easeFactor) : ℤ) : ℚ))
      let ease : ℚ :=
        if quality = 4 then min (5/2) (c.easeFactor + 1/10)
        else if quality = 3 then min (5/2) (c.easeFactor + 1/20)
        else c.easeFactor
      { interval := si.2, repetition := rep, easeFactor := ease,
        stage := si.1, consecutiveCorrect := cc }
    else
      if quality = 1 then
        { interval := 1/4,
          repetition := c.repetition - 1,
          easeFactor := max (13/10) (c.easeFactor - 2/10),
          stage :=
            if c.stage = .review ∨ c.stage = .mastered then .learning
            else c.stage,
          consecutiveCorrect := 0 }
      else
        { interval := max (1/2) ((jsRound (c.interval * (7/10)) : ℤ) : ℚ),
          repetition := c.repetition,
          easeFactor := max (13/10) (c.easeFactor - 1/10),
          stage := c.stage,
          consecutiveCorrect := 0 }
  { r with interval := max (1/4) (min 365 r.interval) }

/-- Entry of the in-session study queue: the card's scheduler-visible state
plus the in-session review counter kept on each queue element. -/
structure SEntry where
  sm2 : ClientCard
  reviewCount : ℕ
deriving DecidableEq, Repr

/-- Session-queue state of `StudySessionPage`: the mutable `studyQueue`
array and the `currentCardIndex` pointer. -/
structure SessionState where
  queue : List SEntry
  idx : ℕ
deriving DecidableEq, Repr

/-- Per-entry effect of a review in `handleCardReview`: `Object.assign` of
the `calculateSM2` result onto the entry and the in-session review-count
increment. -/
def stepEntry (e : SEntry) (quality : ℚ) : SEntry :=
  { sm2 := calculateSM2 e.sm2 quality, reviewCount := e.reviewCount + 1 }

/-- Queue update of the success path of `handleCardReview`
(`src/client/src/pages/StudySessionPage.tsx` lines 229-284): apply the
scheduler to the current entry; if its new stage is `mastered`, splice it
out and reset the pointer to 0 only when it fell past the shortened queue;
otherwise keep the entry and advance the pointer, wrapping to 0 past the
end. With no current card (index out of range) nothing happens. -/
def submitReview (s : SessionState) (quality : ℚ) : SessionState :=
  match s.queue[s.idx]? with
  | none => s
  | some e =>
      let e' := stepEntry e quality
      let q1 := s.queue.set s.idx e'
      if e'.sm2.stage = .mastered then
        let q2 := q1.eraseIdx s.idx
        { queue := q2,
          idx := if q2.length ≤ s.idx ∧ 0 < q2.length then 0 else s.idx }
      else
        { queue := q1,
          idx := if q1.length ≤ s.idx + 1 then 0 else s.idx + 1 }

/-- Queue update of the failure (catch) path of `handleCardReview`
(`src/client/src/pages/StudySessionPage.tsx` lines 288-339), paired with the
resulting `isOfflineMode` flag, which the catch path sets to `true`. -/
def submitReviewOffline (s : SessionState) (quality : ℚ) :
    SessionState × Bool :=
  match s.queue[s.idx]? with
  | none => (s, false)
  | some e =>
      let e' := stepEntry e quality
      let q1 := s.queue.set s.idx e'
      if e'.sm2.stage = .mastered then
        let q2 := q1.eraseIdx s.idx
        ({ queue := q2,
           idx := if q2.length ≤ s.idx ∧ 0 < q2.length then 0 else s.idx },
         true)
      else
        ({ queue := q1, idx := (s.idx + 1) % q1.length }, true)

/-- Session-completion predicate `isSessionComplete` of `StudySessionPage`
(line 44): the study queue is empty. -/
def sessionComplete (s : SessionState) : Bool := s.queue.length = 0

/-- Card row as seen by the study queries: identifier, stage, the
`nextReviewAt` and `createdAt` timestamps (days). -/
structure DbCard where
  id : ℕ
  stage : Stage
  nextReviewAt : ℚ
  createdAt : ℚ
deriving DecidableEq, Repr

/-- Ordering key of both study queries, `orderBy: [nextReviewAt asc,
createdAt asc]`: lexicographic comparison on the two timestamps. -/
def cardLe (a b : DbCard) : Bool :=
  decide (a.nextReviewAt < b.nextReviewAt ∨
    (a.nextReviewAt = b.nextReviewAt ∧ a.createdAt ≤ b.createdAt))

/-- Stable insertion of a card into a list sorted by `cardLe`: the card goes
in front of the first element it compares `≤` to, so earlier rows keep
their relative order among equal keys. -/
def insertSorted (a : DbCard) : List DbCard → List DbCard
  | [] => [a]
  | b :: bs => if cardLe a b then a :: b :: bs else b :: insertSorted a bs

/-- Stable sort of card rows by `nextReviewAt` ascending then `createdAt`
ascending, modelling the `orderBy` clause of the study queries. -/
def orderCards (l : List DbCard) : List DbCard :=
  l.foldr insertSorted []

/-- Session-seeding query of the `/api/study/session` route
(`src/api/index.ts` lines 396-407): all cards whose stage is not
`mastered`, ordered by `nextReviewAt` then `createdAt`, capped at
`maxCards`. -/
def sessionQuery (cards : List DbCard) (maxCards : ℕ) : List DbCard :=
  (orderCards (cards.filter (fun c => decide (c.stage ≠ .mastered)))).take
    maxCards

/-- Due predicate of the `/api/study/due` route: `nextReviewAt ≤ now` or
`stage = new`. -/
def isDue (now : ℚ) (c : DbCard) : Bool :=
  decide (c.nextReviewAt ≤ now ∨ c.stage = .new)

/-- Due-card query of the `/api/study/due` route (`src/api/index.ts` lines
547-564): cards satisfying the due predicate, ordered by `nextReviewAt`
then `createdAt`, optionally capped at `limit`. -/
def dueQuery (cards : List DbCard) (limit : Option ℕ) (now : ℚ) :
    List DbCard :=
  let sorted := orderCards (cards.filter (isDue now))
  match limit with
  | none => sorted
  | some n => sorted.take n

/-- Review-count potential of a card under repeated quality-4 successes: an
upper bound on how many more quality-4 reviews the card needs before
`calculateSM2` reports stage `mastered` (after which the queue removes it). -/
def rank (c : ClientCard) : ℕ :=
  if c.stage = .new then 4
  else if c.stage = .learning then 3
  else if c.stage = .review then (if 1 ≤ c.consecutiveCorrect then 2 else 3)
  else 1

/-- Sum of the per-entry potentials over a study queue; the termination
measure for repeated quality-4 reviews. -/
def sumRank (l : List SEntry) : ℕ :=
  (l.map (fun e => rank e.sm2)).sum

/-- Index-pointer validity of a session state: the queue is empty or the
current-card pointer is in range. Holds at session start (`idx = 0`) and is
preserved by every review. -/
def goodIdx (s : SessionState) : Prop :=
  s.queue = [] ∨ s.idx < s.queue.length

/-- Specification of one queue update in `handleCardReview`, for the entry
`e` currently at `idx`: the entry is removed exactly when its new stage is
`mastered`; otherwise it stays (updated in place) and the pointer advances
by one, wrapping to 0 past the end; and the session is complete exactly
when the queue is empty. -/
def queueStepSpec (queue : List SEntry) (idx : ℕ) (q : ℚ) (e : SEntry) :
    Prop :=
  let e' := stepEntry e q
  let s' := submitReview ⟨queue, idx⟩ q
  ((s'.queue.length < queue.length) ↔ e'.sm2.stage = .mastered) ∧
  (e'.sm2.stage = .mastered → s'.queue = (queue.set idx e').eraseIdx idx) ∧
  (e'.sm2.stage ≠ .mastered →
    s'.queue = queue.set idx e' ∧ s'.idx = (idx + 1) % queue.length) ∧
  (sessionComplete s' = true ↔ s'.queue = [])

/-! Helper lemmas about the sorting and queue operations. -/

theorem mem_insertSorted {a x : DbCard} {l : List DbCard} :
    x ∈ insertSorted a l ↔ x = a ∨ x ∈ l := by
  induction l with
  | nil => simp [insertSorted]
  | cons b bs ih =>
      simp only [insertSorted]
      split
      · simp
      · rw [List.mem_cons, List.mem_cons, ih]
        tauto

theorem mem_orderCards {x : DbCard} {l : List DbCard} :
    x ∈ orderCards l ↔ x ∈ l := by
  induction l with
  | nil => simp [orderCards]
  | cons b bs ih =>
      simp only [orderCards, List.foldr_cons] at ih ⊢
      rw [mem_insertSorted, ih, List.mem_cons]

theorem wrapIdx_eq_mod (i n : ℕ) (h : i < n) :
    (if n ≤ i + 1 then 0 else i + 1) = (i + 1) % n := by
  rcases Nat.lt_or_ge (i + 1) n with h1 | h1
  · rw [if_neg (by omega), Nat.mod_eq_of_lt h1]
  · have : i + 1 = n := by omega
    rw [if_pos (by omega), this, Nat.mod_self]

theorem eraseIdx_set (l : List SEntry) (i : ℕ) (e : SEntry) :
    (l.set i e).eraseIdx i = l.eraseIdx i := by
  induction l generalizing i with
  | nil => simp
  | cons b bs ih =>
      cases i with
      | zero => simp [List.set, List.eraseIdx]
      | succ j => simp [List.set, List.eraseIdx, ih]

theorem sumRank_cons (e : SEntry) (l : List SEntry) :
    sumRank (e :: l) = rank e.sm2 + sumRank l := by
  simp [sumRank]

theorem sumRank_set (l : List SEntry) (i : ℕ) (e : SEntry)
    (h : i < l.length) :
    sumRank (l.set i e) + rank (l.get ⟨i, h⟩).sm2 = sumRank l + rank e.sm2 := by
  induction l generalizing i with
  | nil => simp at h
  | cons b bs ih =>
      cases i with
      | zero => simp [sumRank_cons, List.set]; omega
      | succ j =>
          have hj : j < bs.length := by simpa using h
          simp only [List.set, sumRank_cons, List.get]
          have := ih j hj
          omega

theorem sumRank_eraseIdx (l : List SEntry) (i : ℕ) (h : i < l.length) :
    sumRank (l.eraseIdx i) + rank (l.get ⟨i, h⟩).sm2 = sumRank l := by
  induction l generalizing i with
  | nil => simp at h
  | cons b bs ih =>
      cases i with
      | zero => simp [sumRank_cons, List.eraseIdx]; omega
      | succ j =>
          have hj : j < bs.length := by simpa using h
          simp only [List.eraseIdx, sumRank_cons, List.get]
          have := ih j hj
          omega

theorem rank_pos (c : ClientCard) : 1 ≤ rank c := by
  unfold rank
  split_ifs <;> omega

theorem rank_le_four (c : ClientCard) : rank c ≤ 4 := by
  unfold rank
  split_ifs <;> omega

theorem sumRank_le (l : List SEntry) : sumRank l ≤ 4 * l.length := by
  induction l with
  | nil => simp [sumRank]
  | cons b bs ih =>
      rw [sumRank_cons]
      have := rank_le_four b.sm2
      simp only [List.length_cons]
      omega

theorem sumRank_eq_zero {l : List SEntry} (h : sumRank l = 0) : l = [] := by
  cases l with
  | nil => rfl
  | cons b bs =>
      rw [sumRank_cons] at h
      have := rank_pos b.sm2
      omega

/-! Behaviour of the client scheduler on a quality-4 ("Easy") success, split
by stage, and the resulting strict decrease of the review-count potential. -/

theorem sm2_q4_stage_new (c : ClientCard) (h : c.stage = .new) :
    (calculateSM2 c 4).stage = .learning ∧
    (calculateSM2 c 4).consecutiveCorrect = c.consecutiveCorrect + 1 := by
  norm_num [calculateSM2, h]

theorem sm2_q4_stage_learning (c : ClientCard) (h : c.stage = .learning) :
    (calculateSM2 c 4).stage = .review ∧
    (calculateSM2 c 4).consecutiveCorrect = c.consecutiveCorrect + 1 := by
  norm_num [calculateSM2, h]

theorem sm2_q4_stage_review_lo (c : ClientCard) (h : c.stage = .review)
    (h0 : c.consecutiveCorrect = 0) :
    (calculateSM2 c 4).stage = .review ∧
    (calculateSM2 c 4).consecutiveCorrect = 1 := by
  norm_num [calculateSM2, h, h0]

theorem sm2_q4_stage_review_hi (c : ClientCard) (h : c.stage = .review)
    (h0 : 1 ≤ c.consecutiveCorrect) :
    (calculateSM2 c 4).stage = .mastered := by
  norm_num [calculateSM2, h]
  omega

theorem sm2_q4_stage_mastered (c : ClientCard) (h : c.stage = .mastered) :
    (calculateSM2 c 4).stage = .mastered := by
  norm_num [calculateSM2, h]

theorem rank_decreases (c : ClientCard)
    (h : (calculateSM2 c 4).stage ≠ .mastered) :
    rank (calculateSM2 c 4) < rank c := by
  rcases hst : c.stage with _ | _ | _ | _
  · obtain ⟨h1, h2⟩ := sm2_q4_stage_new c hst
    simp [rank, h1, h2, hst]
  · obtain ⟨h1, h2⟩ := sm2_q4_stage_learning c hst
    simp [rank, h1, h2, hst]
  · rcases Nat.eq_zero_or_pos c.consecutiveCorrect with h0 | h0
    · obtain ⟨h1, h2⟩ := sm2_q4_stage_review_lo c hst h0
      simp [rank, h1, h2, hst, h0]
    · exact absurd (sm2_q4_stage_review_hi c hst h0) h
  · exact absurd (sm2_q4_stage_mastered c hst) h

/-! Lemmas about a single session-queue step. -/

theorem step_empty (s : SessionState) (q : ℚ) (h : s.queue = []) :
    submitReview s q = s := by
  rcases s with ⟨queue, idx⟩
  simp only at h
  subst h
  simp [submitReview]

theorem submitReview_some (queue : List SEntry) (idx : ℕ) (q : ℚ)
    (e : SEntry) (h : queue[idx]? = some e) :
    submitReview ⟨queue, idx⟩ q =
      if (stepEntry e q).sm2.stage = .mastered then
        ⟨((queue.set idx (stepEntry e q)).eraseIdx idx),
         if ((queue.set idx (stepEntry e q)).eraseIdx idx).length ≤ idx ∧
             0 < ((queue.set idx (stepEntry e q)).eraseIdx idx).length then 0
         else idx⟩
      else
        ⟨queue.set idx (stepEntry e q),
         if (queue.set idx (stepEntry e q)).length ≤ idx + 1 then 0
         else idx + 1⟩ := by
  simp only [submitReview, h]

theorem step_good (s : SessionState) (q : ℚ) (h : goodIdx s) :
    goodIdx (submitReview s q) := by
  rcases s with ⟨queue, idx⟩
  rcases h with he | hidx
  · rw [step_empty _ q he]
    exact Or.inl he
  · simp only at hidx
    have hg : queue[idx]? = some queue[idx] := List.getElem?_eq_getElem hidx
    rw [submitReview_some queue idx q queue[idx] hg]
    split
    · rcases Nat.eq_zero_or_pos
        (((queue.set idx (stepEntry queue[idx] q)).eraseIdx idx).length)
        with hl | hl
      · exact Or.inl (List.length_eq_zero.mp hl)
      · refine Or.inr ?_
        split_ifs with hc
        · exact hl
        · rcases Nat.lt_or_ge idx
            (((queue.set idx (stepEntry queue[idx] q)).eraseIdx idx).length)
            with h2 | h2
          · exact h2
          · exact absurd ⟨h2, hl⟩ hc
    · refine Or.inr ?_
      simp only [List.length_set]
      split_ifs with hc
      · omega
      · omega

theorem step_decreases (s : SessionState) (q : ℚ) (hne : s.queue ≠ [])
    (hidx : s.idx < s.queue.length)
    (hq : ¬ ((stepEntry (s.queue.get ⟨s.idx, hidx⟩) q).sm2.stage ≠ .mastered ∧
        ¬ rank (stepEntry (s.queue.get ⟨s.idx, hidx⟩) q).sm2 <
          rank (s.queue.get ⟨s.idx, hidx⟩).sm2)) :
    sumRank (submitReview s q).queue < sumRank s.queue := by
  rcases s with ⟨queue, idx⟩
  simp only at hidx hne hq ⊢
  have hg : queue[idx]? = some queue[idx] := List.getElem?_eq_getElem hidx
  rw [submitReview_some queue idx q queue[idx] hg]
  have hget : queue.get ⟨idx, hidx⟩ = queue[idx] := rfl
  split
  · rename_i hm
    rw [eraseIdx_set]
    have herase := sumRank_eraseIdx queue idx hidx
    have hpos := rank_pos (queue.get ⟨idx, hidx⟩).sm2
    simp only
    omega
  · rename_i hm
    have hset := sumRank_set queue idx (stepEntry queue[idx] q) hidx
    rw [hget] at hq
    have hlt : rank (stepEntry queue[idx] q).sm2 < rank queue[idx].sm2 := by
      by_contra hcon
      exact hq ⟨hm, hcon⟩
    rw [hget] at hset
    simp only
    omega

theorem step_decreases4 (s : SessionState) (hne : s.queue ≠ [])
    (hidx : s.idx < s.queue.length) :
    sumRank (submitReview s 4).queue < sumRank s.queue := by
  apply step_decreases s 4 hne hidx
  intro ⟨hm, hcon⟩
  apply hcon
  have hs : (stepEntry (s.queue.get ⟨s.idx, hidx⟩) 4).sm2 =
      calculateSM2 (s.queue.get ⟨s.idx, hidx⟩).sm2 4 := rfl
  rw [hs] at hm ⊢
  exact rank_decreases _ hm

theorem steps_reach_empty (k : ℕ) (s : SessionState) (hg : goodIdx s)
    (hk : sumRank s.queue ≤ k) :
    ((fun t => submitReview t 4)^[k] s).queue = [] := by
  induction k generalizing s with
  | zero =>
      simp only [Function.iterate_zero, id]
      exact sumRank_eq_zero (Nat.le_zero.mp hk)
  | succ k ih =>
      by_cases hq : s.queue = []
      · rw [Function.iterate_fixed (step_empty s 4 hq)]
        exact hq
      · have hidx : s.idx < s.queue.length := hg.resolve_left hq
        rw [Function.iterate_succ_apply]
        apply ih (submitReview s 4) (step_good s 4 hg)
        have := step_decreases4 s hq hidx
        omega

/-! Claim theorems. -/

/-- Claim C1, corrected. The authoritative server-side review processor and
the client-side session-local scheduler do not compute equivalent results
for every state and outcome: on the card state stage=learning, interval=1,
easeFactor=2.5, consecutiveCorrect=1 with a quality-4 correct review, both
agree on the new stage (review) and consecutive-correct count (2), but the
server yields interval 5 and easeFactor 2.6 while the client yields
interval 4 and easeFactor 2.5. -/
theorem claim_C1 :
    serverReview ⟨.learning, 1, 5/2, 1⟩ 4 true = ⟨.review, 5, 13/5, 2⟩ ∧
    calculateSM2 ⟨1, 0, 5/2, .learning, 1⟩ 4 = ⟨4, 1, 5/2, .review, 2⟩ ∧
    (serverReview ⟨.learning, 1, 5/2, 1⟩ 4 true).stage =
      (calculateSM2 ⟨1, 0, 5/2, .learning, 1⟩ 4).stage ∧
    (serverReview ⟨.learning, 1, 5/2, 1⟩ 4 true).consecutiveCorrect =
      (calculateSM2 ⟨1, 0, 5/2, .learning, 1⟩ 4).consecutiveCorrect ∧
    (serverReview ⟨.learning, 1, 5/2, 1⟩ 4 true).interval ≠
      (calculateSM2 ⟨1, 0, 5/2, .learning, 1⟩ 4).interval ∧
    (serverReview ⟨.learning, 1, 5/2, 1⟩ 4 true).easeFactor ≠
      (calculateSM2 ⟨1, 0, 5/2, .learning, 1⟩ 4).easeFactor := by
  norm_num [serverReview, calculateSM2, jsRound, min_def, max_def,
    SCard.mk.injEq, ClientCard.mk.injEq]

/-- Claim C1, counterexample to the claim as stated: at the concrete card
state stage=learning, interval=1, easeFactor=2.5, consecutiveCorrect=1 with
a quality-4 correct review, the two schedulers do not agree on the new
interval and ease factor. -/
theorem claim_C1_cex :
    ¬ ((serverReview ⟨.learning, 1, 5/2, 1⟩ 4 true).interval =
        (calculateSM2 ⟨1, 0, 5/2, .learning, 1⟩ 4).interval ∧
      (serverReview ⟨.learning, 1, 5/2, 1⟩ 4 true).easeFactor =
        (calculateSM2 ⟨1, 0, 5/2, .learning, 1⟩ 4).easeFactor) := by
  norm_num [serverReview, calculateSM2, jsRound, min_def, max_def]

/-- Claim C2. The authoritative processor maps the card stage=learning,
interval=1, easeFactor=2.5, consecutiveCorrect=1 under a quality-4 correct
review to stage=review, interval=5, easeFactor=2.6, consecutiveCorrect=2. -/
theorem claim_C2 :
    serverReview ⟨.learning, 1, 5/2, 1⟩ 4 true = ⟨.review, 5, 13/5, 2⟩ := by
  norm_num [serverReview, jsRound, min_def, max_def, SCard.mk.injEq]

/-- Claim C3, code bug. On a failed review of a new card the processor sets
interval 0.25 (documented in the source as 6 hours), but the
`setDate(getDate() + interval)` computation truncates the fractional
interval, so `nextReviewAt` equals `now` instead of `now + 0.25` days; the
`reviewCount` part of the claim (increment by exactly 1) does hold. -/
theorem claim_C3 :
    (reviewEndpoint ⟨.new, 1, 5/2, 0⟩ 0 2 false 0 15).state.interval = 1/4 ∧
    (reviewEndpoint ⟨.new, 1, 5/2, 0⟩ 0 2 false 0 15).nextReviewAt = 0 ∧
    (0 : ℚ) ≠ 0 + 1/4 ∧
    (reviewEndpoint ⟨.new, 1, 5/2, 0⟩ 0 2 false 0 15).reviewCount = 0 + 1 := by
  norm_num [reviewEndpoint, serverReview, setDateAdd, jsTrunc]

/-- Claim C4. For every card state with ease factor in [1.3, 2.8] and every
review outcome, both the authoritative processor and the session-local
scheduler produce an ease factor that stays in [1.3, 2.8]. -/
theorem claim_C4 (c : SCard) (d : ClientCard) (q : ℚ) (w : Bool)
    (hc1 : 13/10 ≤ c.easeFactor) (hc2 : c.easeFactor ≤ 28/10)
    (hd1 : 13/10 ≤ d.easeFactor) (hd2 : d.easeFactor ≤ 28/10) :
    (13/10 ≤ (serverReview c q w).easeFactor ∧
      (serverReview c q w).easeFactor ≤ 28/10) ∧
    (13/10 ≤ (calculateSM2 d q).easeFactor ∧
      (calculateSM2 d q).easeFactor ≤ 28/10) := by
  constructor
  · cases w <;> simp [serverReview]
    all_goals try split_ifs
    all_goals try refine ⟨?_, ?_⟩
    all_goals first
      | linarith
      | (exact le_min (by linarith) (by linarith))
      | (exact min_le_of_left_le (by linarith))
      | (exact min_le_of_right_le (by linarith))
      | (exact le_max_of_le_left (by linarith))
      | (exact le_max_of_le_right (by linarith))
      | (exact max_le (by linarith) (by linarith))
  · simp [calculateSM2]
    all_goals try split_ifs
    all_goals try refine ⟨?_, ?_⟩
    all_goals first
      | linarith
      | (exact le_min (by linarith) (by linarith))
      | (exact min_le_of_left_le (by linarith))
      | (exact min_le_of_right_le (by linarith))
      | (exact le_max_of_le_left (by linarith))
      | (exact le_max_of_le_right (by linarith))
      | (exact max_le (by linarith) (by linarith))

/-- Claim C4, witness: the ease-factor bounds hold at the concrete fresh
card (ease 2.5) reviewed with quality 4, correct, on both schedulers. -/
theorem claim_C4_wit :
    ((13/10 : ℚ) ≤ (5/2 : ℚ) ∧ (5/2 : ℚ) ≤ 28/10) ∧
    ((13/10 ≤ (serverReview ⟨.new, 1, 5/2, 0⟩ 4 true).easeFactor ∧
      (serverReview ⟨.new, 1, 5/2, 0⟩ 4 true).easeFactor ≤ 28/10) ∧
     (13/10 ≤ (calculateSM2 ⟨1, 0, 5/2, .new, 0⟩ 4).easeFactor ∧
      (calculateSM2 ⟨1, 0, 5/2, .new, 0⟩ 4).easeFactor ≤ 28/10)) :=
  ⟨⟨by norm_num, by norm_num⟩,
   claim_C4 ⟨.new, 1, 5/2, 0⟩ ⟨1, 0, 5/2, .new, 0⟩ 4 true
     (by norm_num) (by norm_num) (by norm_num) (by norm_num)⟩

/-- Claim C5, corrected. Every card the session-start query places in the
initial study queue has stage different from mastered; the query selects
all non-mastered cards of the deck (ordered by nextReviewAt, capped at
maxCards), not only the cards due at session start. -/
theorem claim_C5 (cards : List DbCard) (maxCards : ℕ) (c : DbCard)
    (h : c ∈ sessionQuery cards maxCards) : c.stage ≠ .mastered := by
  have h1 : c ∈ orderCards
      (cards.filter (fun x => decide (x.stage ≠ .mastered))) :=
    List.take_subset _ _ h
  have h2 := mem_orderCards.mp h1
  have h3 := (List.mem_filter.mp h2).2
  exact of_decide_eq_true h3

/-- Claim C5, witness: a concrete review-stage card is selected by the
session query and indeed is not mastered. -/
theorem claim_C5_wit :
    (⟨1, .review, 15, 0⟩ : DbCard) ∈ sessionQuery [⟨1, .review, 15, 0⟩] 100 ∧
    (⟨1, .review, 15, 0⟩ : DbCard).stage ≠ .mastered :=
  ⟨by decide, claim_C5 [⟨1, .review, 15, 0⟩] 100 ⟨1, .review, 15, 0⟩ (by decide)⟩

/-- Claim C5, counterexample to the claim as stated: a review-stage card
whose nextReviewAt (15) lies after the session start time (10) is still
placed in the initial queue, though it is not due at that moment. -/
theorem claim_C5_cex :
    (⟨1, .review, 15, 0⟩ : DbCard) ∈ sessionQuery [⟨1, .review, 15, 0⟩] 100 ∧
    isDue 10 ⟨1, .review, 15, 0⟩ = false := by
  decide

/-- Claim C6, corrected. For three non-new cards with nextReviewAt T+1,
T-1, T evaluated at time T (= 10), the due query returns exactly the two
cards with nextReviewAt T-1 and T — the `lte` comparison admits the card
due exactly now — with the T-1 card ordered first. -/
theorem claim_C6 :
    dueQuery [⟨1, .review, 11, 0⟩, ⟨2, .review, 9, 1⟩, ⟨3, .review, 10, 2⟩]
      none 10 = [⟨2, .review, 9, 1⟩, ⟨3, .review, 10, 2⟩] := by
  decide

/-- Claim C6, counterexample to the claim as stated: the due query at time
T does not return only the single card with nextReviewAt = T-1. -/
theorem claim_C6_cex :
    dueQuery [⟨1, .review, 11, 0⟩, ⟨2, .review, 9, 1⟩, ⟨3, .review, 10, 2⟩]
      none 10 ≠ [⟨2, .review, 9, 1⟩] := by
  decide

/-- Claim C7. For every session queue state with a current card and every
submitted review: the reviewed entry is removed exactly when its new stage
is mastered; otherwise it stays and the pointer advances to the next entry
modulo the queue length; and the session is complete exactly when the
queue is empty. -/
theorem claim_C7 (queue : List SEntry) (idx : ℕ) (q : ℚ) (e : SEntry)
    (h : queue[idx]? = some e) : queueStepSpec queue idx q e := by
  have hidx : idx < queue.length := by
    by_contra hc
    rw [List.getElem?_eq_none_iff.mpr (by omega)] at h
    exact Option.noConfusion h
  unfold queueStepSpec
  rw [submitReview_some queue idx q e h]
  by_cases hm : (stepEntry e q).sm2.stage = .mastered
  · rw [if_pos hm]
    have hlen : ((queue.set idx (stepEntry e q)).eraseIdx idx).length =
        queue.length - 1 := by
      rw [List.length_eraseIdx_of_lt (by simpa using hidx)]
      simp
    refine ⟨?_, ?_, ?_, ?_⟩
    · simp only [hlen]
      constructor
      · intro _; exact hm
      · intro _; omega
    · intro _; rfl
    · intro hc; exact absurd hm hc
    · simp [sessionComplete, List.length_eq_zero]
  · rw [if_neg hm]
    refine ⟨?_, ?_, ?_, ?_⟩
    · simp only [List.length_set]
      constructor
      · intro hc; omega
      · intro hc; exact absurd hc hm
    · intro hc; exact absurd hc hm
    · intro _
      refine ⟨rfl, ?_⟩
      simp only [List.length_set]
      exact wrapIdx_eq_mod idx queue.length hidx
    · simp [sessionComplete, List.length_eq_zero]

/-- Claim C7, witness: the queue-step specification at a concrete
one-element queue whose card reaches mastered on a quality-4 review. -/
theorem claim_C7_wit :
    (([⟨⟨1, 0, 5/2, .review, 5⟩, 0⟩] : List SEntry)[0]? =
      some ⟨⟨1, 0, 5/2, .review, 5⟩, 0⟩) ∧
    queueStepSpec [⟨⟨1, 0, 5/2, .review, 5⟩, 0⟩] 0 4
      ⟨⟨1, 0, 5/2, .review, 5⟩, 0⟩ :=
  ⟨rfl, claim_C7 [⟨⟨1, 0, 5/2, .review, 5⟩, 0⟩] 0 4
    ⟨⟨1, 0, 5/2, .review, 5⟩, 0⟩ rfl⟩

/-- Claim C8. From any session state with a valid pointer, repeatedly
submitting quality-4 correct reviews empties the study queue within
4 × (queue length) steps: no card needs infinitely many such reviews to
reach mastered and be removed. -/
theorem claim_C8 (s : SessionState) (h : goodIdx s) :
    ((fun t => submitReview t 4)^[4 * s.queue.length] s).queue = [] :=
  steps_reach_empty (4 * s.queue.length) s h (sumRank_le s.queue)

/-- Claim C8, witness: a concrete one-card session queue empties within
4 steps of quality-4 reviews. -/
theorem claim_C8_wit :
    goodIdx ⟨[⟨⟨1, 0, 5/2, .review, 5⟩, 0⟩], 0⟩ ∧
    ((fun t => submitReview t 4)^[4 *
        (⟨[⟨⟨1, 0, 5/2, .review, 5⟩, 0⟩], 0⟩ : SessionState).queue.length]
      ⟨[⟨⟨1, 0, 5/2, .review, 5⟩, 0⟩], 0⟩).queue = [] :=
  ⟨Or.inr (by decide), claim_C8 ⟨[⟨⟨1, 0, 5/2, .review, 5⟩, 0⟩], 0⟩
    (Or.inr (by decide))⟩

/-- Claim C9. When persisting a review fails, the catch path of
`handleCardReview` computes exactly the same queue and pointer update as
the success path, and sets the offline-mode indicator: the session
continues rather than halting. -/
theorem claim_C9 (queue : List SEntry) (idx : ℕ) (q : ℚ)
    (h : idx < queue.length) :
    submitReviewOffline ⟨queue, idx⟩ q =
      (submitReview ⟨queue, idx⟩ q, true) := by
  have hg : queue[idx]? = some queue[idx] := List.getElem?_eq_getElem h
  rw [submitReview_some queue idx q queue[idx] hg]
  simp only [submitReviewOffline, hg]
  by_cases hm : (stepEntry queue[idx] q).sm2.stage = .mastered
  · rw [if_pos hm, if_pos hm]
  · rw [if_neg hm, if_neg hm]
    have hmod : (idx + 1) % (queue.set idx (stepEntry queue[idx] q)).length =
        (if (queue.set idx (stepEntry queue[idx] q)).length ≤ idx + 1 then 0
         else idx + 1) := by
      rw [List.length_set]
      exact (wrapIdx_eq_mod idx queue.length h).symm
    rw [hmod]

/-- Claim C9, witness: on a concrete one-element queue the failure path
equals the success path paired with the offline flag. -/
theorem claim_C9_wit :
    (0 < ([⟨⟨1, 0, 5/2, .review, 5⟩, 0⟩] : List SEntry).length) ∧
    submitReviewOffline ⟨[⟨⟨1, 0, 5/2, .review, 5⟩, 0⟩], 0⟩ 4 =
      (submitReview ⟨[⟨⟨1, 0, 5/2, .review, 5⟩, 0⟩], 0⟩ 4, true) :=
  ⟨by decide, claim_C9 [⟨⟨1, 0, 5/2, .review, 5⟩, 0⟩] 0 4 (by decide)⟩

/-- Claim C10. On every correct review of a review-stage card the new
interval is max(1, round(interval × easeFactor)) — the review-stage
formula, also on the step that enters mastered — so the card
stage=review, interval=1, easeFactor=1.3, consecutiveCorrect=2 enters
mastered with interval 1 < 7; the ≥ 7 floor applies exactly to correct
reviews of cards already in mastered. -/
theorem claim_C10 :
    (∀ (c : SCard) (q : ℚ), c.stage = .review →
      (serverReview c q true).interval =
        max 1 ((jsRound (c.interval * c.easeFactor) : ℤ) : ℚ)) ∧
    (serverReview ⟨.review, 1, 13/10, 2⟩ 4 true).stage = .mastered ∧
    (serverReview ⟨.review, 1, 13/10, 2⟩ 4 true).interval = 1 ∧
    (serverReview ⟨.review, 1, 13/10, 2⟩ 4 true).interval < 7 ∧
    (∀ (c : SCard) (q : ℚ), c.stage = .mastered →
      (serverReview c q true).interval =
        max 7 ((jsRound (c.interval * c.easeFactor) : ℤ) : ℚ)) := by
  refine ⟨?_, ?_, ?_, ?_, ?_⟩
  · intro c q h
    simp [serverReview, h]
  · norm_num [serverReview, jsRound, min_def, max_def]
  · norm_num [serverReview, jsRound, min_def, max_def]
  · norm_num [serverReview, jsRound, min_def, max_def]
  · intro c q h
    simp [serverReview, h]

/-- Claim C10, witness: the review-stage and mastered-stage interval
formulas at concrete cards with interval 2, ease 2, quality 3. -/
theorem claim_C10_wit :
    (serverReview ⟨.review, 2, 2, 0⟩ 3 true).interval =
      max 1 ((jsRound ((⟨.review, 2, 2, 0⟩ : SCard).interval *
        (⟨.review, 2, 2, 0⟩ : SCard).easeFactor) : ℤ) : ℚ) ∧
    (serverReview ⟨.mastered, 2, 2, 0⟩ 3 true).interval =
      max 7 ((jsRound ((⟨.mastered, 2, 2, 0⟩ : SCard).interval *
        (⟨.mastered, 2, 2, 0⟩ : SCard).easeFactor) : ℤ) : ℚ) :=
  ⟨claim_C10.1 ⟨.review, 2, 2, 0⟩ 3 rfl,
   claim_C10.2.2.2.2 ⟨.mastered, 2, 2, 0⟩ 3 rfl⟩

end Koda
